import Mathlib

/-!
# macreleaser — verification of the core pipeline against its specification

Shallow embedding of the macreleaser release-automation tool
(Go sources under `pkg/` and `internal/`), together with proofs of the
spec-level claims about the pipeline runner, the environment-variable
substitution, the validation stage, and the Build / Sign / Archive /
Homebrew pipes.

Strings are modelled by Lean `String` / `List Char`; Go errors are
modelled by `Option String` or `Except String`; the process environment
is an explicit function `String → Option String`; the filesystem and
external tools (xcodebuild, codesign, the GitHub API) are explicit
parameters or oracles, so every definition is executable.
-/

namespace Macreleaser

/-! ## String helpers (Go `strings` / `path/filepath` equivalents) -/

/-- Go `strings.Contains(hay, needle)` on character lists. -/
def substrOf (needle : List Char) : List Char → Bool
  | [] => needle.isEmpty
  | c :: rest => needle.isPrefixOf (c :: rest) || substrOf needle rest

/-- Go `strings.Contains` on `String`. -/
def strContains (hay needle : String) : Bool :=
  substrOf needle.data hay.data

/-- Go `filepath.Ext`: the suffix of the final path element beginning at its
final dot, the empty string when the final element has no dot. -/
def filepathExt (p : String) : String :=
  let tailRev := p.data.reverse.takeWhile (fun c => c ≠ '/')
  if tailRev.contains '.' then
    String.mk ('.' :: (tailRev.takeWhile (fun c => c ≠ '.')).reverse)
  else ""

/-- Split a character list into `/`-separated components. -/
def splitOnSlashAux : List Char → List Char → List (List Char)
  | [], acc => [acc.reverse]
  | c :: rest, acc =>
    if c = '/' then acc.reverse :: splitOnSlashAux rest []
    else splitOnSlashAux rest (c :: acc)

/-- Model of Go `filepath.IsLocal` (Unix): the components never escape the
current directory through `..`. -/
def isLocalComponents : List (List Char) → Int → Bool
  | [], depth => depth ≥ 0
  | comp :: rest, depth =>
    if comp = ['.', '.'] then depth > 0 && isLocalComponents rest (depth - 1)
    else if comp = ['.'] || comp = [] then isLocalComponents rest depth
    else isLocalComponents rest (depth + 1)

/-- Model of Go `filepath.IsLocal` (Unix): the path is non-empty, relative,
and never escapes the current directory through `..` components. -/
def filepathIsLocal (p : String) : Bool :=
  match p.data with
  | [] => false
  | c :: rest => (c != '/') && isLocalComponents (splitOnSlashAux (c :: rest) []) 0

/-! ## `pkg/env` — environment-variable substitution

The Go package compiles the regular expression `env\(([^)]+)\)` and uses
it for `CheckResolved` (`FindAllStringSubmatch`) and
`replaceEnvVarsInString` (`ReplaceAllStringFunc`).  We embed the regex
by an explicit scanner: a match at a position is the literal `env(`,
followed by a maximal non-empty run of characters other than `)`,
followed by `)`; scanning proceeds left to right. -/

/-- Try to match `env\(([^)]+)\)` at the head of `l`; on success return the
captured variable name: the run of non-`)` characters after `env(`, which
must be non-empty (`[^)]+`) and be followed by a `)` (equivalently, stop
short of the end of the input). -/
def tryEnvAt : List Char → Option (List Char)
  | 'e' :: 'n' :: 'v' :: '(' :: rest =>
    if rest.takeWhile (fun c => c != ')') ≠ [] ∧
        (rest.takeWhile (fun c => c != ')')).length < rest.length then
      some (rest.takeWhile (fun c => c != ')'))
    else none
  | _ => none

/-- The leftmost match of `env\(([^)]+)\)` in `l` (its captured name), as
found by Go's regexp engine. -/
def scanEnvRef : List Char → Option (List Char)
  | [] => none
  | c :: rest =>
    match tryEnvAt (c :: rest) with
    | some name => some name
    | none => scanEnvRef rest

/-- All (non-overlapping, leftmost-first) matches of `env\(([^)]+)\)` in `l`,
as produced by Go's `FindAllStringSubmatch` / `ReplaceAllStringFunc`. -/
def scanEnvRefs (l : List Char) : List (List Char) :=
  match l with
  | [] => []
  | c :: rest =>
    match tryEnvAt (c :: rest) with
    | some name => name :: scanEnvRefs (rest.drop (name.length + 4))
    | none => scanEnvRefs rest
termination_by l.length
decreasing_by
  · simp [List.length_drop]; omega
  · simp

/-- `env.CheckResolved(value, field)`: report the first unresolved
`env(NAME)` reference.  Go returns `error`; we return `Option String`
(`some msg` is the error case). -/
def CheckResolved (value field : String) : Option String :=
  match scanEnvRef value.data with
  | some name =>
    some (field ++ ": environment variable " ++ String.mk name ++ " is not set")
  | none => none

/-- The character class `[\x00-\x08\x0b\x0c\x0e-\x1f\x7f]` of
`disallowedControlChars`. -/
def isDisallowedControl (c : Char) : Bool :=
  c.toNat ≤ 0x08 || c.toNat = 0x0b || c.toNat = 0x0c ||
  (0x0e ≤ c.toNat && c.toNat ≤ 0x1f) || c.toNat = 0x7f

/-- Go `disallowedControlChars.MatchString`. -/
def hasDisallowedControl (s : String) : Bool :=
  s.data.any isDisallowedControl

/-- The error message set by `replaceEnvVarsInString` for a bad value. -/
def controlCharErr (name : List Char) : String :=
  "environment variable " ++ String.mk name ++ " contains disallowed control characters"

/-- Core of `replaceEnvVarsInString`: walk the string left to right; at each
match of `env(NAME)` look `NAME` up in `env`.  Unset variables leave the
match verbatim; set values containing disallowed control characters
contribute the empty string and record an error (as in Go, a later error
overwrites an earlier one); other values are substituted.  Returns the
rewritten characters and the final value of the `err` variable. -/
def replaceEnvChars (env : String → Option String) : List Char → List Char × Option String
  | [] => ([], none)
  | c :: rest =>
    match tryEnvAt (c :: rest) with
    | some name =>
      let after := replaceEnvChars env (rest.drop (name.length + 4))
      match env (String.mk name) with
      | none => ('e' :: 'n' :: 'v' :: '(' :: name ++ ')' :: after.1, after.2)
      | some v =>
        if hasDisallowedControl v then
          (after.1, some (after.2.getD (controlCharErr name)))
        else (v.data ++ after.1, after.2)
    | none =>
      let after := replaceEnvChars env rest
      (c :: after.1, after.2)
termination_by l => l.length
decreasing_by
  · simp [List.length_drop]; omega
  · simp

/-- `env.replaceEnvVarsInString`. -/
def replaceEnvVarsInString (env : String → Option String) (input : String) :
    Except String String :=
  match replaceEnvChars env input.data with
  | (_, some e) => .error e
  | (result, none) => .ok (String.mk result)

/-- A process environment with no variable set. -/
def envAllUnset : String → Option String := fun _ => none

/-- A process environment mapping every name to a value holding the
disallowed control character `\x01`. -/
def envCtrlChar : String → Option String := fun _ => some (String.mk ['\x01'])

/-- A process environment with only `A=one` set. -/
def envAOne : String → Option String := fun n => if n = "A" then some "one" else none

/-- Spec-side reading of the regex `env\(([^)]+)\)`: the characters of `l`
decompose as `pre ++ "env(" ++ name ++ ")" ++ suf` with a non-empty
`name` containing no `)`. -/
abbrev EnvRefAt (l pre name suf : List Char) : Prop :=
  l = pre ++ 'e' :: 'n' :: 'v' :: '(' :: (name ++ ')' :: suf) ∧
  name ≠ [] ∧ ∀ c ∈ name, c ≠ ')'

/-! ## `pkg/env` — YAML tree walk (`SubstituteEnvVarsNode` / `substituteNode`)

Embedding of the `goccy/go-yaml` AST node kinds that `substituteNode`
dispatches on.  `LiteralNode` carries an optional inner string node
(`n.Value` may be nil); `MappingValueNode` carries a key node and an
optional value node; `MappingKeyNode`, `AliasNode` and `DirectiveNode`
are returned untouched by the Go code, so their payloads are opaque
subtrees here. -/

inductive YNode where
  | document (body : Option YNode)
  | mapping (values : List YNode)
  | mappingValue (key : YNode) (value : Option YNode)
  | sequence (values : List YNode)
  | tag (value : Option YNode)
  | anchor (value : Option YNode)
  | literal (value : Option String)
  | str (value : String)
  | mappingKey (value : Option YNode)
  | aliasNode (name : String)
  | directive (name : String)
  deriving Repr

mutual

/-- `env.substituteNode(node, inValue)`: rewrite `env(NAME)` references in
value nodes only.  Mapping keys are never visited (the `MappingValueNode`
case recurses only into `n.Value`).  The Go function mutates the tree in
place and returns `error`; here it returns the rewritten tree. -/
def substituteNode (env : String → Option String) : YNode → Bool → Except String YNode
  | .document none, _ => .ok (.document none)
  | .document (some b), _ => do
    let b' ← substituteNode env b true
    .ok (.document (some b'))
  | .mapping vs, inValue => do
    let vs' ← substituteNodeList env vs inValue
    .ok (.mapping vs')
  | .mappingValue k none, _ => .ok (.mappingValue k none)
  | .mappingValue k (some v), _ => do
    let v' ← substituteNode env v true
    .ok (.mappingValue k (some v'))
  | .sequence vs, _ => do
    let vs' ← substituteNodeList env vs true
    .ok (.sequence vs')
  | .tag none, _ => .ok (.tag none)
  | .tag (some v), inValue => do
    let v' ← substituteNode env v inValue
    .ok (.tag (some v'))
  | .anchor none, _ => .ok (.anchor none)
  | .anchor (some v), inValue => do
    let v' ← substituteNode env v inValue
    .ok (.anchor (some v'))
  | .literal none, _ => .ok (.literal none)
  | .literal (some s), inValue =>
    if inValue then do
      let s' ← replaceEnvVarsInString env s
      .ok (.literal (some s'))
    else .ok (.literal (some s))
  | .str s, inValue =>
    if inValue then do
      let s' ← replaceEnvVarsInString env s
      .ok (.str s')
    else .ok (.str s)
  | .mappingKey v, _ => .ok (.mappingKey v)
  | .aliasNode a, _ => .ok (.aliasNode a)
  | .directive d, _ => .ok (.directive d)

/-- The loop bodies of the `MappingNode` / `SequenceNode` cases of
`substituteNode`. -/
def substituteNodeList (env : String → Option String) :
    List YNode → Bool → Except String (List YNode)
  | [], _ => .ok []
  | v :: rest, inValue => do
    let v' ← substituteNode env v inValue
    let rest' ← substituteNodeList env rest inValue
    .ok (v' :: rest')

end

/-- `env.SubstituteEnvVarsNode`: entry point, starts with `inValue = true`. -/
def SubstituteEnvVarsNode (env : String → Option String) (node : YNode) :
    Except String YNode :=
  substituteNode env node true

mutual

/-- Blank out every string in *value position* (the positions
`substituteNode` may rewrite), leaving everything else — in particular
every mapping key — intact.  Two trees agree under `eraseValues` exactly
when they differ at most in value-position strings. -/
def eraseValues : YNode → Bool → YNode
  | .document none, _ => .document none
  | .document (some b), _ => .document (some (eraseValues b true))
  | .mapping vs, inValue => .mapping (eraseValuesList vs inValue)
  | .mappingValue k none, _ => .mappingValue k none
  | .mappingValue k (some v), _ => .mappingValue k (some (eraseValues v true))
  | .sequence vs, _ => .sequence (eraseValuesList vs true)
  | .tag none, _ => .tag none
  | .tag (some v), inValue => .tag (some (eraseValues v inValue))
  | .anchor none, _ => .anchor none
  | .anchor (some v), inValue => .anchor (some (eraseValues v inValue))
  | .literal none, _ => .literal none
  | .literal (some s), inValue => .literal (some (if inValue then "" else s))
  | .str s, inValue => .str (if inValue then "" else s)
  | .mappingKey v, _ => .mappingKey v
  | .aliasNode a, _ => .aliasNode a
  | .directive d, _ => .directive d

/-- Pointwise `eraseValues` on node lists. -/
def eraseValuesList : List YNode → Bool → List YNode
  | [], _ => []
  | v :: rest, inValue => eraseValues v inValue :: eraseValuesList rest inValue

end

/-! ## `pkg/pipe` and `pkg/pipeline` — the pipe contract and the runner

A Go pipe is a value with a `String()` name and a `Run(ctx) error`
method that may mutate the shared context.  We model `Run` by explicit
state passing over an arbitrary state type `σ`, and a Go `error` by
`Option PipeErr`, where `PipeErr` records the message and whether the
error reports itself as a skip (`errors.As(err, &s) && s.IsSkip()`). -/

/-- A Go `error` as the pipeline sees it: its message and whether it
satisfies the `pipe.IsSkip` interface with `IsSkip() == true`. -/
structure PipeErr where
  msg : String
  skip : Bool
  deriving Repr

/-- `pipe.Skip(reason)` / the per-package `skipError` types. -/
def skipErr (reason : String) : PipeErr := ⟨reason, true⟩

/-- A plain (non-skip) pipe error. -/
def fatalErr (msg : String) : PipeErr := ⟨msg, false⟩

/-- The `pipe.Piper` interface over state type `σ`. -/
structure Piper (σ : Type) where
  name : String
  run : σ → σ × Option PipeErr

/-- `pipeline.runPipes`: run the pipes in order; a skip error is logged and
the loop continues; any other error stops the loop immediately and is
returned wrapped as `"<pipe name>: <error>"`.  Returns the final state
and the run's `error` result (`none` = Go `nil`). -/
def runPipes {σ : Type} (pipes : List (Piper σ)) (s : σ) : σ × Option String :=
  match pipes with
  | [] => (s, none)
  | p :: rest =>
    match p.run s with
    | (s', none) => runPipes rest s'
    | (s', some e) =>
      if e.skip then runPipes rest s'
      else (s', some (p.name ++ ": " ++ e.msg))

/-- Every error produced along the run of `pipes` from `s` is a skip. -/
def OnlySkipErrs {σ : Type} : List (Piper σ) → σ → Prop
  | [], _ => True
  | p :: rest, s =>
    match p.run s with
    | (s', none) => OnlySkipErrs rest s'
    | (s', some e) => e.skip = true ∧ OnlySkipErrs rest s'

/-! ## `pkg/config`, `pkg/context` — configuration and execution context -/

structure ProjectConfig where
  name : String
  scheme : String
  workspace : String
  deriving Repr

structure BuildConfig where
  configuration : String
  architectures : List String
  deriving Repr

structure SignConfig where
  identity : String
  deriving Repr

structure NotarizeConfig where
  appleID : String
  teamID : String
  password : String
  deriving Repr

structure ArchiveConfig where
  formats : List String
  deriving Repr

structure ChangelogGroupConfig where
  title : String
  regexp : String
  deriving Repr

structure ChangelogFiltersConfig where
  exclude : List String
  includes : List String  -- Go field `Include` (a Lean keyword)
  deriving Repr

structure ChangelogConfig where
  disable : Bool
  sort : String
  filters : ChangelogFiltersConfig
  groups : List ChangelogGroupConfig
  deriving Repr

structure GitHubConfig where
  owner : String
  repo : String
  draft : Bool
  deriving Repr

structure ReleaseConfig where
  github : GitHubConfig
  deriving Repr

structure CaskConfig where
  name : String
  desc : String
  homepage : String
  license : String
  deriving Repr

structure TapConfig where
  owner : String
  name : String
  token : String
  deriving Repr

structure HomebrewConfig where
  cask : CaskConfig
  tap : TapConfig
  deriving Repr

structure Config where
  project : ProjectConfig
  build : BuildConfig
  sign : SignConfig
  notarize : NotarizeConfig
  archive : ArchiveConfig
  changelog : ChangelogConfig
  release : ReleaseConfig
  homebrew : HomebrewConfig
  deriving Repr

/-- `context.Artifacts`: the only mutable shared record. -/
structure Artifacts where
  buildOutputDir : String
  archivePath : String
  appPath : String
  packages : List String
  releaseURL : String
  homebrewCaskPath : String
  deriving Repr

/-- `context.Context`, restricted to the fields the pipes read or write
(standard context, logger and injected API clients are omitted: the
first two carry no pipeline-visible state and the clients are modelled
as oracles where needed). -/
structure Context where
  config : Config
  version : String
  clean : Bool
  artifacts : Artifacts
  skipPublish : Bool
  skipNotarize : Bool
  deriving Repr

/-! ## `pkg/validate` — field validation helpers -/

/-- `validate.RequiredString`. -/
def RequiredString (value field : String) : Option PipeErr :=
  if value = "" then some (fatalErr (field ++ " is required")) else none

/-- `validate.RequiredSlice`. -/
def RequiredSlice (values : List String) (field : String) : Option PipeErr :=
  if values.length = 0 then some (fatalErr (field ++ " requires at least one item"))
  else none

/-- `validate.AllOneOf`. -/
def AllOneOf (values allowed : List String) (field : String) : Option PipeErr :=
  match values.find? (fun v => !(allowed.contains v)) with
  | some v => some (fatalErr ("invalid " ++ field ++ ": " ++ v))
  | none => none

/-- Lift `env.CheckResolved` to a pipe error. -/
def checkResolvedErr (value field : String) : Option PipeErr :=
  (CheckResolved value field).map fatalErr

/-- Go `%q` formatting, without escape sequences (none of the proofs depend
on the quoted text). -/
def goQuote (s : String) : String := "\"" ++ s ++ "\""

/-! ## The validation stage — the eight `CheckPipe.Run` bodies

Each Go `Run` receives the context by pointer; none of the bodies below
assigns to any context field, which the embedding renders by returning
the received state unchanged next to the `error` result. -/

/-- `internal/pipe/project.CheckPipe.Run`. -/
def projectCheckRun (ctx : Context) : Context × Option PipeErr :=
  let cfg := ctx.config.project
  (ctx,
    checkResolvedErr cfg.name "project.name" <|>
    checkResolvedErr cfg.scheme "project.scheme" <|>
    RequiredString cfg.name "project.name" <|>
    (if !(filepathIsLocal cfg.name) then
      some (fatalErr ("project.name contains a path traversal or absolute path: " ++
        goQuote cfg.name))
    else none) <|>
    RequiredString cfg.scheme "project.scheme")

/-- `internal/pipe/build.CheckPipe.Run`. -/
def buildCheckRun (ctx : Context) : Context × Option PipeErr :=
  let cfg := ctx.config.build
  (ctx,
    RequiredString cfg.configuration "build.configuration" <|>
    RequiredSlice cfg.architectures "build.architectures" <|>
    AllOneOf cfg.architectures ["arm64", "x86_64", "Universal Binary"] "build.architectures")

/-- `internal/pipe/sign.CheckPipe.Run`. -/
def signCheckRun (ctx : Context) : Context × Option PipeErr :=
  (ctx, RequiredString ctx.config.sign.identity "sign.identity")

/-- `internal/pipe/notarize.CheckPipe.Run`. -/
def notarizeCheckRun (ctx : Context) : Context × Option PipeErr :=
  if ctx.skipNotarize then
    (ctx, some (skipErr "notarization skipped via --skip-notarize"))
  else
    let cfg := ctx.config.notarize
    (ctx,
      checkResolvedErr cfg.appleID "notarize.apple_id" <|>
      checkResolvedErr cfg.teamID "notarize.team_id" <|>
      checkResolvedErr cfg.password "notarize.password" <|>
      RequiredString cfg.appleID "notarize.apple_id" <|>
      RequiredString cfg.teamID "notarize.team_id" <|>
      RequiredString cfg.password "notarize.password")

/-- `internal/pipe/archive.CheckPipe.Run`. -/
def archiveCheckRun (ctx : Context) : Context × Option PipeErr :=
  let cfg := ctx.config.archive
  (ctx,
    RequiredSlice cfg.formats "archive.formats" <|>
    AllOneOf cfg.formats ["dmg", "zip", "app"] "archive.formats")

/-- The indexed `cfg.Groups` loop of `changelog.CheckPipe.Run`.
`regexOk` is an oracle for `regexp.Compile` succeeding on a pattern. -/
def changelogCheckGroups (regexOk : String → Bool) :
    Nat → List ChangelogGroupConfig → Option PipeErr
  | _, [] => none
  | i, g :: rest =>
    if g.title = "" then
      some (fatalErr ("changelog.groups[" ++ toString i ++ "]: title is required"))
    else if g.regexp ≠ "" && !(regexOk g.regexp) then
      some (fatalErr ("changelog.groups[" ++ toString i ++ "]: invalid regexp " ++
        goQuote g.regexp))
    else changelogCheckGroups regexOk (i + 1) rest

/-- The `cfg.Filters.*` loops of `changelog.CheckPipe.Run`. -/
def changelogCheckPatterns (regexOk : String → Bool) (field : String) :
    List String → Option PipeErr
  | [] => none
  | p :: rest =>
    if !(regexOk p) then some (fatalErr (field ++ ": invalid regex " ++ goQuote p))
    else changelogCheckPatterns regexOk field rest

/-- `internal/pipe/changelog.CheckPipe.Run`. -/
def changelogCheckRun (regexOk : String → Bool) (ctx : Context) :
    Context × Option PipeErr :=
  let cfg := ctx.config.changelog
  if cfg.disable then (ctx, some (skipErr "changelog disabled"))
  else if cfg.sort ≠ "" && cfg.sort ≠ "asc" && cfg.sort ≠ "desc" then
    (ctx, some (fatalErr ("changelog.sort must be \"asc\" or \"desc\", got " ++
      goQuote cfg.sort)))
  else
    (ctx,
      changelogCheckPatterns regexOk "changelog.filters.exclude" cfg.filters.exclude <|>
      changelogCheckPatterns regexOk "changelog.filters.include" cfg.filters.includes <|>
      changelogCheckGroups regexOk 0 cfg.groups)

/-- `internal/pipe/release.CheckPipe.Run`. -/
def releaseCheckRun (ctx : Context) : Context × Option PipeErr :=
  if ctx.skipPublish then (ctx, some (skipErr "publishing skipped"))
  else
    let cfg := ctx.config.release.github
    (ctx,
      checkResolvedErr cfg.owner "release.github.owner" <|>
      checkResolvedErr cfg.repo "release.github.repo" <|>
      RequiredString cfg.owner "release.github.owner" <|>
      RequiredString cfg.repo "release.github.repo")

/-- `internal/pipe/homebrew.isTapConfigured`. -/
def isTapConfigured (cfg : TapConfig) : Bool :=
  cfg.owner != "" || cfg.name != "" || cfg.token != ""

/-- `internal/pipe/homebrew.CheckPipe.Run`. -/
def homebrewCheckRun (ctx : Context) : Context × Option PipeErr :=
  let cfg := ctx.config.homebrew
  (ctx,
    RequiredString cfg.cask.name "homebrew.cask.name" <|>
    RequiredString cfg.cask.desc "homebrew.cask.desc" <|>
    RequiredString cfg.cask.homepage "homebrew.cask.homepage" <|>
    (if isTapConfigured cfg.tap then
      RequiredString cfg.tap.owner "homebrew.tap.owner" <|>
      RequiredString cfg.tap.name "homebrew.tap.name" <|>
      RequiredString cfg.tap.token "homebrew.tap.token"
    else none))

/-- `pkg/pipe/registry.go` `ValidationPipes`, with each pipe's `String()`
name. -/
def ValidationPipes (regexOk : String → Bool) : List (Piper Context) :=
  [⟨"validating project configuration", projectCheckRun⟩,
   ⟨"validating build configuration", buildCheckRun⟩,
   ⟨"validating signing configuration", signCheckRun⟩,
   ⟨"validating notarization configuration", notarizeCheckRun⟩,
   ⟨"validating archive configuration", archiveCheckRun⟩,
   ⟨"validating changelog configuration", changelogCheckRun regexOk⟩,
   ⟨"validating release configuration", releaseCheckRun⟩,
   ⟨"validating homebrew configuration", homebrewCheckRun⟩]

/-- `pipeline.RunValidation`. -/
def RunValidation (regexOk : String → Bool) (ctx : Context) : Context × Option String :=
  runPipes (ValidationPipes regexOk) ctx

/-! ## `internal/pipe/build.Pipe.Run` — fail-fast section (claim C2)

The prefix of the execution `Run` up to and including the
`os.MkdirAll(outputDir, 0755)` call: path-component validation, output
directory computation, directory creation.  `dirExists` says whether
`dist/<name>/<version>` exists on disk before the pipe runs;
`mkdirIOFails` models an I/O failure of `MkdirAll` for a directory that
did not exist (Go's `os.MkdirAll` returns nil when the full path already
exists as a directory).  An `.ok` result means the pipe proceeds to
workspace resolution and the `xcodebuild` invocation. -/
def buildPrelude (projectName version : String) (dirExists mkdirIOFails : Bool) :
    Except String String :=
  if !(filepathIsLocal projectName) then
    .error ("project.name contains a path traversal or absolute path: " ++
      goQuote projectName)
  else if !(filepathIsLocal version) then
    .error ("version contains a path traversal or absolute path: " ++ goQuote version)
  else
    let outputDir := "dist/" ++ projectName ++ "/" ++ version
    if !dirExists && mkdirIOFails then
      .error ("failed to create output directory " ++ outputDir)
    else .ok outputDir

/-! ## `internal/pipe/sign.Pipe.Run` and `pkg/sign.RunCodesign` (claim C8) -/

/-- `hardenedRuntime := !ctx.SkipNotarize && ctx.Config.Notarize.AppleID != ""`
(line 51 of the sign execution pipe). -/
def hardenedRuntimeFlag (ctx : Context) : Bool :=
  !ctx.skipNotarize && (ctx.config.notarize.appleID != "")

/-- The argument list built by `sign.RunCodesign`. -/
def codesignArgs (identity appPath : String) (hardenedRuntime : Bool) : List String :=
  ["--deep", "--force"] ++
  (if hardenedRuntime then ["--options", "runtime"] else []) ++
  ["--sign", identity, appPath]

/-- The codesign argument list the sign execution pipe produces for a
context (it calls `sign.RunCodesign(identity, ctx.Artifacts.AppPath,
hardenedRuntime)`). -/
def signPipeCodesignArgs (ctx : Context) : List String :=
  codesignArgs ctx.config.sign.identity ctx.artifacts.appPath (hardenedRuntimeFlag ctx)

/-! ## `pkg/homebrew` — package selection and cask rendering -/

/-- `homebrew.SelectPackage`. -/
def SelectPackage (packages : List String) : Except String String :=
  match packages.find? (fun p => filepathExt p == ".zip") with
  | some p => .ok p
  | none =>
    match packages.find? (fun p => filepathExt p == ".dmg") with
    | some p => .ok p
    | none =>
      .error "no .zip or .dmg package found for Homebrew cask — ensure archive formats include zip or dmg"

/-- `homebrew.CaskData`. -/
structure CaskData where
  token : String
  version : String
  sha256 : String
  url : String
  name : String
  desc : String
  homepage : String
  appName : String
  license : String
  deriving Repr

/-- `homebrew.validateCaskField`: `strings.ContainsAny(value, "\"\n\r\\")`
then the Ruby-interpolation check. -/
def validateCaskField (name value : String) : Option String :=
  if value.data.any (fun c => c = '"' || c = '\n' || c = '\r' || c = '\\') then
    some ("invalid " ++ name ++ ": must not contain double quotes, backslashes, or newlines")
  else if strContains value "#\x7b" then
    some ("invalid " ++ name ++ ": must not contain Ruby interpolation sequences")
  else none

/-- The `fields` map literal of `RenderCask`, in source order.  (Go map
iteration order is unspecified; it only affects which field an error
names when several are invalid, never whether an error occurs.) -/
def caskFields (d : CaskData) : List (String × String) :=
  [("token", d.token), ("version", d.version), ("url", d.url), ("name", d.name),
   ("desc", d.desc), ("homepage", d.homepage), ("app_name", d.appName),
   ("license", d.license)]

/-- The field-validation loop of `RenderCask`. -/
def firstInvalidCaskField : List (String × String) → Option String
  | [] => none
  | (n, v) :: rest =>
    match validateCaskField n v with
    | some e => some e
    | none => firstInvalidCaskField rest

/-- The output of executing `caskTemplate` on `d` (the template is a
constant; `text/template` cannot fail on plain string fields, and the
`\x7b\x7b- if .License\x7d\x7d` action trims the preceding newline and
treats the empty string as false). -/
def renderedCask (d : CaskData) : String :=
  "cask \"" ++ d.token ++ "\" do\n" ++
  "  version \"" ++ d.version ++ "\"\n" ++
  "  sha256 \"" ++ d.sha256 ++ "\"\n\n" ++
  "  url \"" ++ d.url ++ "\"\n" ++
  "  name \"" ++ d.name ++ "\"\n" ++
  "  desc \"" ++ d.desc ++ "\"\n" ++
  "  homepage \"" ++ d.homepage ++ "\"" ++
  (if d.license != "" then "\n\n  license \"" ++ d.license ++ "\"" else "") ++
  "\n\n  app \"" ++ d.appName ++ "\"\nend\n"

/-- `homebrew.RenderCask`. -/
def RenderCask (d : CaskData) : Except String String :=
  match firstInvalidCaskField (caskFields d) with
  | some e => .error e
  | none => .ok (renderedCask d)

/-- The property claimed of each templated cask field: free of double
quote, backslash, carriage return, newline, and the `#` `\x7b`
interpolation opener. -/
def CaskFieldClean (v : String) : Prop :=
  '"' ∉ v.data ∧ '\\' ∉ v.data ∧ '\r' ∉ v.data ∧ '\n' ∉ v.data ∧
  ¬ (("#\x7b" : String).data <:+: v.data)

/-- Sample cask data whose token holds a double quote. -/
def caskDataBadToken : CaskData :=
  { token := "bad\"tok", version := "1.0", sha256 := "ab", url := "https://u",
    name := "N", desc := "D", homepage := "H", appName := "N.app", license := "" }

/-- Sample cask data with every field clean. -/
def caskDataClean : CaskData :=
  { token := "myapp", version := "1.0", sha256 := "ab", url := "https://u",
    name := "N", desc := "D", homepage := "H", appName := "N.app", license := "" }

/-! ## `internal/pipe/homebrew.commitToTap` (claim C9) -/

/-- A write performed against the tap repository. -/
inductive TapWrite where
  | update (path message sha content : String)
  | create (path message content : String)
  deriving Repr

/-- `commitToTap`, as a function of the outcome of
`GetFileContents` (`readResult`: `.ok sha` returns the existing blob
SHA, `.error e` its error text) and of the subsequent
`UpdateFile`/`CreateFile` call (`updateResult`/`createResult`: `some e`
is a failure).  Returns the write the pipe attempts against the tap
(`none` = nothing written) and the pipe's `error` result. -/
def commitToTap (tapOwner tapName token version caskContent : String)
    (readResult : Except String String)
    (updateResult createResult : Option String) :
    Option TapWrite × Option String :=
  let caskPath := "Casks/" ++ token ++ ".rb"
  match readResult with
  | .ok sha =>
    let message := "Update " ++ token ++ " to " ++ version
    (some (.update caskPath message sha caskContent),
     updateResult.map (fun e =>
       "failed to commit cask to tap " ++ tapOwner ++ "/" ++ tapName ++ ": " ++ e))
  | .error e =>
    if strContains e "404" then
      let message := "Add " ++ token ++ " " ++ version
      (some (.create caskPath message caskContent),
       createResult.map (fun e' =>
         "failed to commit cask to tap " ++ tapOwner ++ "/" ++ tapName ++ ": " ++ e'))
    else
      (none, some ("failed to check existing cask in tap " ++ tapOwner ++ "/" ++
        tapName ++ ": " ++ e))

/-! ## `internal/pipe/archive.Pipe.Run` (claim C10) -/

/-- Go `filepath.Base`. -/
def filepathBase (p : String) : String :=
  if p = "" then "."
  else
    let rev := p.data.reverse.dropWhile (fun c => c = '/')
    if rev = [] then "/" else String.mk ((rev.takeWhile (fun c => c ≠ '/')).reverse)

/-- Go `strings.TrimSuffix`. -/
def trimSuffix (s suffix : String) : String :=
  if suffix.data.isSuffixOf s.data then
    String.mk (s.data.take (s.data.length - suffix.data.length))
  else s

/-- The `for _, format := range cfg.Archive.Formats` switch of the archive
execution pipe.  `zipResult`/`dmgResult` are oracles for
`archive.CreateZip`/`archive.CreateDMG` keyed by output path (`some e` =
failure).  `acc` is `ctx.Artifacts.Packages`.  The switch has no default
branch: an unrecognized format matches no case and the loop moves on. -/
def archiveFold (zipResult dmgResult : String → Option String)
    (appPath outputDir appName version : String) :
    List String → List String → List String × Option PipeErr
  | [], acc => (acc, none)
  | format :: rest, acc =>
    if format = "zip" then
      let outputPath := outputDir ++ "/" ++ appName ++ "-" ++ version ++ ".zip"
      match zipResult outputPath with
      | some e => (acc, some (fatalErr ("ZIP packaging failed: " ++ e)))
      | none =>
        archiveFold zipResult dmgResult appPath outputDir appName version rest
          (acc ++ [outputPath])
    else if format = "dmg" then
      let outputPath := outputDir ++ "/" ++ appName ++ "-" ++ version ++ ".dmg"
      match dmgResult outputPath with
      | some e => (acc, some (fatalErr ("DMG packaging failed: " ++ e)))
      | none =>
        archiveFold zipResult dmgResult appPath outputDir appName version rest
          (acc ++ [outputPath])
    else if format = "app" then
      archiveFold zipResult dmgResult appPath outputDir appName version rest
        (acc ++ [appPath])
    else
      archiveFold zipResult dmgResult appPath outputDir appName version rest acc

/-- `internal/pipe/archive.Pipe.Run`. -/
def archivePipeRun (zipResult dmgResult : String → Option String) (ctx : Context) :
    Context × Option PipeErr :=
  if ctx.artifacts.appPath = "" then
    (ctx, some (fatalErr "no .app found to package — ensure the build step completed successfully"))
  else
    let outputDir := ctx.artifacts.buildOutputDir
    let appName := trimSuffix (filepathBase ctx.artifacts.appPath) ".app"
    let (pkgs, err) := archiveFold zipResult dmgResult ctx.artifacts.appPath outputDir
      appName ctx.version ctx.config.archive.formats ctx.artifacts.packages
    ({ ctx with artifacts := { ctx.artifacts with packages := pkgs } }, err)

/-- Replace the configured archive formats of a context (used to compare
runs that differ only in `archive.formats`). -/
def withFormats (ctx : Context) (formats : List String) : Context :=
  { ctx with config :=
    { ctx.config with archive := { ctx.config.archive with formats := formats } } }

/-! # Theorems -/

/-! ## Claim C1 — skip vs fatal errors in the pipeline runner -/

/-- Claim C1: a pipe whose error reports itself as a skip is logged and
the runner continues with the next pipe (and a run whose every error is
a skip returns nil); a pipe returning any other non-nil error stops the
runner immediately — the remaining pipes are not invoked (the result
does not depend on them) — and the run returns that error wrapped as
`"<pipe name>: <error>"`. -/
theorem runPipes_skip_fatal_spec :
    (∀ (σ : Type) (p : Piper σ) (rest : List (Piper σ)) (s s' : σ) (e : PipeErr),
      p.run s = (s', some e) → e.skip = true →
      runPipes (p :: rest) s = runPipes rest s')
    ∧ (∀ (σ : Type) (p : Piper σ) (rest : List (Piper σ)) (s s' : σ) (e : PipeErr),
      p.run s = (s', some e) → e.skip = false →
      runPipes (p :: rest) s = (s', some (p.name ++ ": " ++ e.msg)))
    ∧ (∀ (σ : Type) (pipes : List (Piper σ)) (s : σ),
      OnlySkipErrs pipes s → (runPipes pipes s).2 = none) := by
  refine ⟨?_, ?_, ?_⟩
  · intro σ p rest s s' e hrun hskip
    simp [runPipes, hrun, hskip]
  · intro σ p rest s s' e hrun hskip
    simp [runPipes, hrun, hskip]
  · intro σ pipes
    induction pipes with
    | nil => intro s _; rfl
    | cons p rest ih =>
      intro s h
      unfold OnlySkipErrs at h
      rcases hrun : p.run s with ⟨s', e⟩
      rw [hrun] at h
      cases e with
      | none =>
        simp only [runPipes, hrun]
        exact ih s' h
      | some e =>
        simp only at h
        simp only [runPipes, hrun, h.1, if_true]
        exact ih s' h.2

/-- Concrete instances of `runPipes_skip_fatal_spec` over `σ = Nat`:
a skip continues, a fatal error stops with the wrapped message, an
all-skips run returns nil. -/
theorem runPipes_skip_fatal_spec_witness :
    runPipes [⟨"a", fun s => (s + 1, some ⟨"skipped", true⟩)⟩,
              ⟨"b", fun s => (s * 10, none)⟩] (0 : Nat) = runPipes [⟨"b", fun s => (s * 10, none)⟩] 1
    ∧ runPipes [⟨"a", fun s => (s + 1, some ⟨"boom", false⟩)⟩,
                ⟨"b", fun s => (s * 10, none)⟩] (0 : Nat) = (1, some "a: boom")
    ∧ (runPipes [⟨"a", fun s => (s, some ⟨"skipped", true⟩)⟩] (0 : Nat)).2 = none := by
  refine ⟨?_, ?_, ?_⟩
  · exact runPipes_skip_fatal_spec.1 Nat _ _ 0 1 ⟨"skipped", true⟩ rfl rfl
  · exact runPipes_skip_fatal_spec.2.1 Nat _ _ 0 1 ⟨"boom", false⟩ rfl rfl
  · exact runPipes_skip_fatal_spec.2.2 Nat _ 0 (by simp [OnlySkipErrs])

/-! ## Claim C3 — `CheckResolved` errors exactly on unresolved references -/

/-- The head of what `dropWhile` leaves fails the predicate. -/
theorem dropWhile_head_not (p : Char → Bool) :
    ∀ (l : List Char) (c : Char) (t : List Char),
      l.dropWhile p = c :: t → p c = false := by
  intro l
  induction l with
  | nil => intro c t h; cases h
  | cons a l' ih =>
    intro c t h
    rw [List.dropWhile_cons] at h
    by_cases hp : p a = true
    · rw [if_pos hp] at h
      exact ih c t h
    · rw [if_neg hp] at h
      injection h with h1 _
      subst h1
      exact Bool.eq_false_iff.mpr hp

/-- `takeWhile (· != ')')` across an appended close paren. -/
theorem takeWhile_no_paren :
    ∀ (name suf : List Char), (∀ c ∈ name, c ≠ ')') →
      (name ++ ')' :: suf).takeWhile (fun c => c != ')') = name := by
  intro name
  induction name with
  | nil => intro suf _; simp
  | cons c cs ih =>
    intro suf h
    have hc : c ≠ ')' := h c (by simp)
    have hpc : (fun c => c != ')') c = true := by simp [hc]
    rw [List.cons_append, List.takeWhile_cons, if_pos hpc,
      ih suf (fun x hx => h x (by simp [hx]))]

/-- Characterization of a successful match of `env\(([^)]+)\)` at the head
of the input. -/
theorem tryEnvAt_eq_some_iff (l name : List Char) :
    tryEnvAt l = some name ↔
      ∃ suf, l = 'e' :: 'n' :: 'v' :: '(' :: (name ++ ')' :: suf) ∧ name ≠ [] ∧
        ∀ c ∈ name, c ≠ ')' := by
  constructor
  · intro h
    unfold tryEnvAt at h
    split at h
    · rename_i rest
      split_ifs at h with hcond
      · injection h with h
        obtain ⟨hne, hlt⟩ := hcond
        have hsplit := (List.takeWhile_append_dropWhile (p := fun c => c != ')')
          (l := rest)).symm
        have hlen : rest.length =
            (rest.takeWhile (fun c => c != ')')).length +
            (rest.dropWhile (fun c => c != ')')).length := by
          conv_lhs => rw [hsplit]
          exact List.length_append _ _
        have hdropne : rest.dropWhile (fun c => c != ')') ≠ [] := by
          intro hnil
          rw [hnil] at hlen
          simp at hlen
          omega
        obtain ⟨d, t, hdt⟩ := List.exists_cons_of_ne_nil hdropne
        have hd : d = ')' := by
          have hh := dropWhile_head_not _ rest d t hdt
          simpa using hh
        subst hd
        refine ⟨t, ?_, by rw [← h]; exact hne, ?_⟩
        · have hrest : rest = name ++ ')' :: t := by
            conv_lhs => rw [hsplit]
            rw [h, hdt]
          rw [hrest]
        · intro c hc
          have hc' : c ∈ rest.takeWhile (fun c => c != ')') := by
            rw [h]; exact hc
          have := List.mem_takeWhile_imp hc'
          simpa using this
    · cases h
  · rintro ⟨suf, hl, hne, hno⟩
    subst hl
    show (if (name ++ ')' :: suf).takeWhile (fun c => c != ')') ≠ [] ∧
        ((name ++ ')' :: suf).takeWhile (fun c => c != ')')).length <
          (name ++ ')' :: suf).length then
      some ((name ++ ')' :: suf).takeWhile (fun c => c != ')'))
    else none) = some name
    rw [takeWhile_no_paren name suf hno]
    rw [if_pos ⟨hne, by simp [List.length_append]⟩]

/-- `scanEnvRef` succeeds exactly when the input contains a match of
`env\(([^)]+)\)`. -/
theorem scanEnvRef_isSome_iff :
    ∀ l : List Char, (scanEnvRef l).isSome = true ↔
      ∃ pre name suf, EnvRefAt l pre name suf := by
  intro l
  induction l with
  | nil =>
    constructor
    · intro h; simp [scanEnvRef] at h
    · rintro ⟨pre, name, suf, h, _, _⟩
      exact absurd h (by simp)
  | cons c rest ih =>
    cases htry : tryEnvAt (c :: rest) with
    | some m =>
      constructor
      · intro _
        obtain ⟨suf, hl, hne, hno⟩ := (tryEnvAt_eq_some_iff _ _).mp htry
        exact ⟨[], m, suf, by simpa using hl, hne, hno⟩
      · intro _
        simp [scanEnvRef, htry]
    | none =>
      have hstep : scanEnvRef (c :: rest) = scanEnvRef rest := by
        simp [scanEnvRef, htry]
      rw [hstep, ih]
      constructor
      · rintro ⟨pre, name, suf, h, hne, hno⟩
        exact ⟨c :: pre, name, suf, by simp [h], hne, hno⟩
      · rintro ⟨pre, name, suf, h, hne, hno⟩
        cases pre with
        | nil =>
          exfalso
          simp only [List.nil_append] at h
          have hx : tryEnvAt (c :: rest) = some name := by
            rw [h]
            exact (tryEnvAt_eq_some_iff _ _).mpr ⟨suf, rfl, hne, hno⟩
          rw [htry] at hx
          cases hx
        | cons c' pre' =>
          simp only [List.cons_append] at h
          injection h with _ h2
          exact ⟨pre', name, suf, h2, hne, hno⟩

/-- `scanEnvRef` returns the leftmost match: its name admits a
decomposition whose prefix is shortest among all matches. -/
theorem scanEnvRef_eq_some_first :
    ∀ (l name : List Char), scanEnvRef l = some name →
      ∃ pre suf, EnvRefAt l pre name suf ∧
        ∀ pre' n' s', EnvRefAt l pre' n' s' → pre.length ≤ pre'.length := by
  intro l
  induction l with
  | nil => intro name h; exact absurd h (by simp [scanEnvRef])
  | cons c rest ih =>
    intro name h
    cases htry : tryEnvAt (c :: rest) with
    | some m =>
      have hm : m = name := by
        have := h
        simp only [scanEnvRef, htry] at this
        injection this
      subst hm
      obtain ⟨suf, hl, hne, hno⟩ := (tryEnvAt_eq_some_iff _ _).mp htry
      exact ⟨[], suf, ⟨by simpa using hl, hne, hno⟩, fun pre' n' s' _ => by simp⟩
    | none =>
      have hstep : scanEnvRef (c :: rest) = scanEnvRef rest := by
        simp [scanEnvRef, htry]
      rw [hstep] at h
      obtain ⟨pre, suf, hat, hmin⟩ := ih name h
      refine ⟨c :: pre, suf, ⟨by simp [hat.1], hat.2.1, hat.2.2⟩, ?_⟩
      intro pre' n' s' hat'
      cases pre' with
      | nil =>
        exfalso
        obtain ⟨h1, hne', hno'⟩ := hat'
        simp only [List.nil_append] at h1
        have hx : tryEnvAt (c :: rest) = some n' := by
          rw [h1]
          exact (tryEnvAt_eq_some_iff _ _).mpr ⟨s', rfl, hne', hno'⟩
        rw [htry] at hx
        cases hx
      | cons c' pre'' =>
        obtain ⟨h1, hne', hno'⟩ := hat'
        simp only [List.cons_append] at h1
        injection h1 with _ h2
        have := hmin pre'' n' s' ⟨h2, hne', hno'⟩
        simpa using Nat.succ_le_succ this

/-- Claim C3: `CheckResolved v f` errors exactly when `v` contains a
substring matching `env\([^)]+\)`; the error message is
`"<f>: environment variable <NAME> is not set"` where `NAME` is the
first (leftmost) remaining reference in `v`. -/
theorem checkResolved_spec :
    (∀ v f : String, (CheckResolved v f).isSome = true ↔
      ∃ pre name suf, EnvRefAt v.data pre name suf)
    ∧ (∀ v f msg : String, CheckResolved v f = some msg →
      ∃ pre name suf, EnvRefAt v.data pre name suf ∧
        (∀ pre' n' s', EnvRefAt v.data pre' n' s' → pre.length ≤ pre'.length) ∧
        msg = f ++ ": environment variable " ++ String.mk name ++ " is not set") := by
  constructor
  · intro v f
    unfold CheckResolved
    cases hscan : scanEnvRef v.data with
    | some name =>
      have hex := (scanEnvRef_isSome_iff v.data).mp (by rw [hscan]; rfl)
      simp only [Option.isSome_some, true_iff]
      exact hex
    | none =>
      have hnex : ¬ ∃ pre name suf, EnvRefAt v.data pre name suf := by
        rw [← scanEnvRef_isSome_iff, hscan]
        simp
      simp only [Option.isSome_none, Bool.false_eq_true, false_iff]
      exact hnex
  · intro v f msg h
    unfold CheckResolved at h
    cases hscan : scanEnvRef v.data with
    | none => rw [hscan] at h; cases h
    | some name =>
      rw [hscan] at h
      injection h with h
      obtain ⟨pre, suf, hat, hmin⟩ := scanEnvRef_eq_some_first v.data name hscan
      exact ⟨pre, name, suf, hat, hmin, h.symm⟩

/-- Concrete instance of `checkResolved_spec`: the spec's S1 example,
`CheckResolved "env(MISSING)" "x.b"`. -/
theorem checkResolved_spec_witness :
    ∃ pre name suf, EnvRefAt ("env(MISSING)" : String).data pre name suf ∧
      (∀ pre' n' s', EnvRefAt ("env(MISSING)" : String).data pre' n' s' →
        pre.length ≤ pre'.length) ∧
      "x.b: environment variable MISSING is not set" =
        "x.b" ++ ": environment variable " ++ String.mk name ++ " is not set" :=
  checkResolved_spec.2 "env(MISSING)" "x.b"
    "x.b: environment variable MISSING is not set" rfl

/-! ## Claim C4 — substitution rewrites value nodes only; missing
variables stay intact -/

/-- Inversion for `Except` bind against an `ok` result. -/
theorem bindOkInv {α β : Type} {x : Except String α} {f : α → Except String β} {y : β}
    (h : x >>= f = .ok y) : ∃ a, x = .ok a ∧ f a = .ok y := by
  cases x with
  | error e => simp [Bind.bind, Except.bind] at h
  | ok a => exact ⟨a, rfl, by simpa [Bind.bind, Except.bind] using h⟩

/-- An infix of `m` is an infix of `x ++ m`. -/
theorem withinAppendLeft {α : Type} (x : List α) {m n : List α} (h : n <:+: m) :
    n <:+: x ++ m := by
  obtain ⟨s, t, hst⟩ := h
  exact ⟨x ++ s, t, by rw [← hst]; simp⟩

/-- A head match determines how the scanner splits the input: the tail of
the match is exactly `rest.drop (name.length + 4)`. -/
theorem tryEnvAt_decomp (c : Char) (rest name : List Char)
    (h : tryEnvAt (c :: rest) = some name) :
    c :: rest =
      'e' :: 'n' :: 'v' :: '(' :: (name ++ ')' :: rest.drop (name.length + 4)) := by
  obtain ⟨suf, hl, _, _⟩ := (tryEnvAt_eq_some_iff _ _).mp h
  have hc : c = 'e' := by injection hl
  have hrest : rest = 'n' :: 'v' :: '(' :: (name ++ ')' :: suf) := by
    injection hl
  have hsuf : rest.drop (name.length + 4) = suf := by
    rw [hrest]
    have hshape : 'n' :: 'v' :: '(' :: (name ++ ')' :: suf) =
        ('n' :: 'v' :: '(' :: (name ++ [')'])) ++ suf := by simp
    have hlen : ('n' :: 'v' :: '(' :: (name ++ [')'])).length = name.length + 4 := by
      simp [List.length_append]
    rw [hshape, ← hlen, List.drop_left]
  rw [← hsuf] at hl
  exact hl

/-- Unfolding `scanEnvRefs` at a successful head match. -/
theorem scanEnvRefs_cons_match (c : Char) (rest name : List Char)
    (h : tryEnvAt (c :: rest) = some name) :
    scanEnvRefs (c :: rest) = name :: scanEnvRefs (rest.drop (name.length + 4)) := by
  simp [scanEnvRefs, h]

/-- Unfolding `scanEnvRefs` when the head does not match. -/
theorem scanEnvRefs_cons_skip (c : Char) (rest : List Char)
    (h : tryEnvAt (c :: rest) = none) :
    scanEnvRefs (c :: rest) = scanEnvRefs rest := by
  simp [scanEnvRefs, h]

/-- Unfolding `replaceEnvChars` at a match whose variable is unset: the
match is emitted verbatim. -/
theorem replaceEnvChars_cons_unset (env : String → Option String) (c : Char)
    (rest name : List Char) (h : tryEnvAt (c :: rest) = some name)
    (he : env (String.mk name) = none) :
    replaceEnvChars env (c :: rest) =
      ('e' :: 'n' :: 'v' :: '(' :: name ++
        ')' :: (replaceEnvChars env (rest.drop (name.length + 4))).1,
       (replaceEnvChars env (rest.drop (name.length + 4))).2) := by
  simp [replaceEnvChars, h, he]

/-- Unfolding `replaceEnvChars` at a match whose value carries a
disallowed control character: the error slot is set. -/
theorem replaceEnvChars_cons_ctrl (env : String → Option String) (c : Char)
    (rest name : List Char) (v : String) (h : tryEnvAt (c :: rest) = some name)
    (he : env (String.mk name) = some v) (hbad : hasDisallowedControl v = true) :
    replaceEnvChars env (c :: rest) =
      ((replaceEnvChars env (rest.drop (name.length + 4))).1,
       some ((replaceEnvChars env (rest.drop (name.length + 4))).2.getD
         (controlCharErr name))) := by
  simp [replaceEnvChars, h, he, hbad]

/-- Unfolding `replaceEnvChars` at a match whose value is substituted. -/
theorem replaceEnvChars_cons_subst (env : String → Option String) (c : Char)
    (rest name : List Char) (v : String) (h : tryEnvAt (c :: rest) = some name)
    (he : env (String.mk name) = some v) (hok : ¬ hasDisallowedControl v = true) :
    replaceEnvChars env (c :: rest) =
      (v.data ++ (replaceEnvChars env (rest.drop (name.length + 4))).1,
       (replaceEnvChars env (rest.drop (name.length + 4))).2) := by
  simp [replaceEnvChars, h, he, hok]

/-- Unfolding `replaceEnvChars` when the head does not match. -/
theorem replaceEnvChars_cons_skip (env : String → Option String) (c : Char)
    (rest : List Char) (h : tryEnvAt (c :: rest) = none) :
    replaceEnvChars env (c :: rest) =
      (c :: (replaceEnvChars env rest).1, (replaceEnvChars env rest).2) := by
  simp [replaceEnvChars, h]

/-- When every referenced variable is unset, substitution is the identity
and reports no error. -/
theorem replaceEnvChars_all_unset (env : String → Option String) :
    ∀ l : List Char, (∀ name ∈ scanEnvRefs l, env (String.mk name) = none) →
      replaceEnvChars env l = (l, none) := by
  refine replaceEnvChars.induct env
    (fun l => (∀ name ∈ scanEnvRefs l, env (String.mk name) = none) →
      replaceEnvChars env l = (l, none)) ?_ ?_ ?_ ?_ ?_
  · intro _
    simp [replaceEnvChars]
  · intro c rest name htry henv ih h
    have hall : ∀ n ∈ scanEnvRefs (rest.drop (name.length + 4)),
        env (String.mk n) = none := by
      intro n hn
      refine h n ?_
      rw [scanEnvRefs_cons_match c rest name htry]
      exact List.mem_cons_of_mem _ hn
    rw [replaceEnvChars_cons_unset env c rest name htry henv, ih hall]
    simp [tryEnvAt_decomp c rest name htry]
  · intro c rest name htry v henv _ _ h
    exfalso
    have hx := h name (by
      rw [scanEnvRefs_cons_match c rest name htry]
      exact List.mem_cons_self _ _)
    rw [henv] at hx
    cases hx
  · intro c rest name htry v henv _ _ h
    exfalso
    have hx := h name (by
      rw [scanEnvRefs_cons_match c rest name htry]
      exact List.mem_cons_self _ _)
    rw [henv] at hx
    cases hx
  · intro c rest htry ih h
    have hall : ∀ n ∈ scanEnvRefs rest, env (String.mk n) = none := by
      intro n hn
      refine h n ?_
      rw [scanEnvRefs_cons_skip c rest htry]
      exact hn
    rw [replaceEnvChars_cons_skip env c rest htry, ih hall]

/-- Every match whose variable is unset survives substitution verbatim:
the literal `env(NAME)` is an infix of the output. -/
theorem replaceEnvChars_keeps_unset (env : String → Option String) :
    ∀ l : List Char, ∀ name, name ∈ scanEnvRefs l →
      env (String.mk name) = none → (replaceEnvChars env l).2 = none →
      ('e' :: 'n' :: 'v' :: '(' :: (name ++ [')'])) <:+: (replaceEnvChars env l).1 := by
  refine replaceEnvChars.induct env
    (fun l => ∀ name, name ∈ scanEnvRefs l →
      env (String.mk name) = none → (replaceEnvChars env l).2 = none →
      ('e' :: 'n' :: 'v' :: '(' :: (name ++ [')'])) <:+: (replaceEnvChars env l).1)
    ?_ ?_ ?_ ?_ ?_
  · intro name hmem _ _
    simp [scanEnvRefs] at hmem
  · intro c rest name htry henv ih n' hmem henv' herr
    rw [scanEnvRefs_cons_match c rest name htry] at hmem
    rw [replaceEnvChars_cons_unset env c rest name htry henv] at herr ⊢
    dsimp only at herr ⊢
    rcases List.mem_cons.mp hmem with rfl | hmem'
    · refine ⟨[], (replaceEnvChars env (rest.drop (n'.length + 4))).1, ?_⟩
      simp
    · have hin := ih n' hmem' henv' herr
      have hres : 'e' :: 'n' :: 'v' :: '(' :: name ++
          ')' :: (replaceEnvChars env (rest.drop (name.length + 4))).1 =
          ('e' :: 'n' :: 'v' :: '(' :: (name ++ [')'])) ++
          (replaceEnvChars env (rest.drop (name.length + 4))).1 := by simp
      rw [hres]
      exact withinAppendLeft _ hin
  · intro c rest name htry v henv hbad ih n' hmem henv' herr
    rw [replaceEnvChars_cons_ctrl env c rest name v htry henv hbad] at herr
    simp at herr
  · intro c rest name htry v henv hok ih n' hmem henv' herr
    rw [scanEnvRefs_cons_match c rest name htry] at hmem
    rw [replaceEnvChars_cons_subst env c rest name v htry henv hok] at herr ⊢
    dsimp only at herr ⊢
    rcases List.mem_cons.mp hmem with rfl | hmem'
    · rw [henv] at henv'
      cases henv'
    · exact withinAppendLeft _ (ih n' hmem' henv' herr)
  · intro c rest htry ih n' hmem henv' herr
    rw [scanEnvRefs_cons_skip c rest htry] at hmem
    rw [replaceEnvChars_cons_skip env c rest htry] at herr ⊢
    dsimp only at herr ⊢
    have hin := ih n' hmem henv' herr
    have hres : c :: (replaceEnvChars env rest).1 =
        [c] ++ (replaceEnvChars env rest).1 := rfl
    rw [hres]
    exact withinAppendLeft [c] hin

/-- Substitution fails only because of a *set* variable whose value holds
a disallowed control character — never because of a missing variable. -/
theorem replaceEnvChars_err_from_set (env : String → Option String) :
    ∀ l : List Char, (replaceEnvChars env l).2 ≠ none →
      ∃ name v, name ∈ scanEnvRefs l ∧ env (String.mk name) = some v ∧
        hasDisallowedControl v = true := by
  refine replaceEnvChars.induct env
    (fun l => (replaceEnvChars env l).2 ≠ none →
      ∃ name v, name ∈ scanEnvRefs l ∧ env (String.mk name) = some v ∧
        hasDisallowedControl v = true) ?_ ?_ ?_ ?_ ?_
  · intro h
    simp [replaceEnvChars] at h
  · intro c rest name htry henv ih h
    rw [replaceEnvChars_cons_unset env c rest name htry henv] at h
    dsimp only at h
    obtain ⟨n, v, hm, he, hb⟩ := ih h
    refine ⟨n, v, ?_, he, hb⟩
    rw [scanEnvRefs_cons_match c rest name htry]
    exact List.mem_cons_of_mem _ hm
  · intro c rest name htry v henv hbad ih _
    refine ⟨name, v, ?_, henv, hbad⟩
    rw [scanEnvRefs_cons_match c rest name htry]
    exact List.mem_cons_self _ _
  · intro c rest name htry v henv hok ih h
    rw [replaceEnvChars_cons_subst env c rest name v htry henv hok] at h
    dsimp only at h
    obtain ⟨n, w, hm, he, hb⟩ := ih h
    refine ⟨n, w, ?_, he, hb⟩
    rw [scanEnvRefs_cons_match c rest name htry]
    exact List.mem_cons_of_mem _ hm
  · intro c rest htry ih h
    rw [replaceEnvChars_cons_skip env c rest htry] at h
    dsimp only at h
    obtain ⟨n, w, hm, he, hb⟩ := ih h
    refine ⟨n, w, ?_, he, hb⟩
    rw [scanEnvRefs_cons_skip c rest htry]
    exact hm

/-- When no variable at all is set, string substitution returns its input. -/
theorem replaceEnvVarsInString_all_unset (s : String) :
    replaceEnvVarsInString (fun _ => none) s = .ok s := by
  unfold replaceEnvVarsInString
  rw [replaceEnvChars_all_unset (fun _ => none) s.data (fun _ _ => rfl)]

/-- `substituteNode` rewrites value-position strings only: erasing the
value positions of the output gives back the erased input — in
particular every mapping key, and every node spine, is untouched. -/
theorem substituteNode_preserves_erasure (env : String → Option String) :
    (∀ (n : YNode) (b : Bool), ∀ n', substituteNode env n b = .ok n' →
      eraseValues n' b = eraseValues n b)
    ∧ (∀ (l : List YNode) (b : Bool), ∀ l', substituteNodeList env l b = .ok l' →
      eraseValuesList l' b = eraseValuesList l b) := by
  refine substituteNode.mutual_induct env
    (fun n b => ∀ n', substituteNode env n b = .ok n' →
      eraseValues n' b = eraseValues n b)
    (fun l b => ∀ l', substituteNodeList env l b = .ok l' →
      eraseValuesList l' b = eraseValuesList l b)
    ?_ ?_ ?_ ?_ ?_ ?_ ?_ ?_ ?_ ?_ ?_ ?_ ?_ ?_ ?_ ?_ ?_ ?_ ?_ ?_
  · intro x n' h
    simp only [substituteNode] at h
    injection h with h
    subst h
    rfl
  · intro b x ih n' h
    simp only [substituteNode] at h
    obtain ⟨b', hsub, hret⟩ := bindOkInv h
    injection hret with hret
    subst hret
    simp only [eraseValues]
    rw [ih b' hsub]
  · intro vs inValue ih n' h
    simp only [substituteNode] at h
    obtain ⟨vs', hsub, hret⟩ := bindOkInv h
    injection hret with hret
    subst hret
    simp only [eraseValues]
    rw [ih vs' hsub]
  · intro k x n' h
    simp only [substituteNode] at h
    injection h with h
    subst h
    rfl
  · intro k v x ih n' h
    simp only [substituteNode] at h
    obtain ⟨v', hsub, hret⟩ := bindOkInv h
    injection hret with hret
    subst hret
    simp only [eraseValues]
    rw [ih v' hsub]
  · intro vs x ih n' h
    simp only [substituteNode] at h
    obtain ⟨vs', hsub, hret⟩ := bindOkInv h
    injection hret with hret
    subst hret
    simp only [eraseValues]
    rw [ih vs' hsub]
  · intro x n' h
    simp only [substituteNode] at h
    injection h with h
    subst h
    rfl
  · intro v inValue ih n' h
    simp only [substituteNode] at h
    obtain ⟨v', hsub, hret⟩ := bindOkInv h
    injection hret with hret
    subst hret
    simp only [eraseValues]
    rw [ih v' hsub]
  · intro x n' h
    simp only [substituteNode] at h
    injection h with h
    subst h
    rfl
  · intro v inValue ih n' h
    simp only [substituteNode] at h
    obtain ⟨v', hsub, hret⟩ := bindOkInv h
    injection hret with hret
    subst hret
    simp only [eraseValues]
    rw [ih v' hsub]
  · intro x n' h
    simp only [substituteNode] at h
    injection h with h
    subst h
    rfl
  · intro s n' h
    simp only [substituteNode, if_pos rfl] at h
    obtain ⟨s', hsub, hret⟩ := bindOkInv h
    injection hret with hret
    subst hret
    simp [eraseValues]
  · intro s inValue hnv n' h
    have hb : inValue = false := by
      cases inValue
      · rfl
      · exact absurd rfl hnv
    subst hb
    simp only [substituteNode, if_neg (by simp : ¬(false = true))] at h
    injection h with h
    subst h
    rfl
  · intro s n' h
    simp only [substituteNode, if_pos rfl] at h
    obtain ⟨s', hsub, hret⟩ := bindOkInv h
    injection hret with hret
    subst hret
    simp [eraseValues]
  · intro s inValue hnv n' h
    have hb : inValue = false := by
      cases inValue
      · rfl
      · exact absurd rfl hnv
    subst hb
    simp only [substituteNode, if_neg (by simp : ¬(false = true))] at h
    injection h with h
    subst h
    rfl
  · intro v x n' h
    simp only [substituteNode] at h
    injection h with h
    subst h
    rfl
  · intro a x n' h
    simp only [substituteNode] at h
    injection h with h
    subst h
    rfl
  · intro d x n' h
    simp only [substituteNode] at h
    injection h with h
    subst h
    rfl
  · intro x l' h
    simp only [substituteNodeList] at h
    injection h with h
    subst h
    rfl
  · intro v rest inValue ih1 ih2 l' h
    simp only [substituteNodeList] at h
    obtain ⟨v', hv, h2⟩ := bindOkInv h
    obtain ⟨rest', hr, hret⟩ := bindOkInv h2
    injection hret with hret
    subst hret
    simp only [eraseValuesList]
    rw [ih1 v' hv, ih2 rest' hr]

/-- With no variable set at all, the tree walk is the identity. -/
theorem substituteNode_all_unset :
    (∀ (n : YNode) (b : Bool), substituteNode (fun _ => none) n b = .ok n)
    ∧ (∀ (l : List YNode) (b : Bool),
      substituteNodeList (fun _ => none) l b = .ok l) := by
  refine substituteNode.mutual_induct (fun _ => none)
    (fun n b => substituteNode (fun _ => none) n b = .ok n)
    (fun l b => substituteNodeList (fun _ => none) l b = .ok l)
    ?_ ?_ ?_ ?_ ?_ ?_ ?_ ?_ ?_ ?_ ?_ ?_ ?_ ?_ ?_ ?_ ?_ ?_ ?_ ?_
  · intro x
    simp [substituteNode]
  · intro b x ih
    simp [substituteNode, ih, Bind.bind, Except.bind]
  · intro vs inValue ih
    simp [substituteNode, ih, Bind.bind, Except.bind]
  · intro k x
    simp [substituteNode]
  · intro k v x ih
    simp [substituteNode, ih, Bind.bind, Except.bind]
  · intro vs x ih
    simp [substituteNode, ih, Bind.bind, Except.bind]
  · intro x
    simp [substituteNode]
  · intro v inValue ih
    simp [substituteNode, ih, Bind.bind, Except.bind]
  · intro x
    simp [substituteNode]
  · intro v inValue ih
    simp [substituteNode, ih, Bind.bind, Except.bind]
  · intro x
    simp [substituteNode]
  · intro s
    simp [substituteNode, replaceEnvVarsInString_all_unset, Bind.bind, Except.bind]
  · intro s inValue hnv
    have hb : inValue = false := by
      cases inValue
      · rfl
      · exact absurd rfl hnv
    subst hb
    simp [substituteNode]
  · intro s
    simp [substituteNode, replaceEnvVarsInString_all_unset, Bind.bind, Except.bind]
  · intro s inValue hnv
    have hb : inValue = false := by
      cases inValue
      · rfl
      · exact absurd rfl hnv
    subst hb
    simp [substituteNode]
  · intro v x
    simp [substituteNode]
  · intro a x
    simp [substituteNode]
  · intro d x
    simp [substituteNode]
  · intro x
    simp [substituteNodeList]
  · intro v rest inValue ih1 ih2
    simp [substituteNodeList, ih1, ih2, Bind.bind, Except.bind]

/-- Claim C4: environment substitution over a parsed YAML document rewrites
only value-position strings — never a mapping key (erasing the value
positions of input and output gives identical trees) — and an `env(NAME)`
reference whose variable is unset survives substitution verbatim:
substitution leaves the literal intact and only ever fails because of a
*set* variable with a disallowed control character.  In particular, with
no variables set the walk is the identity. -/
theorem substitution_value_nodes_only_spec :
    (∀ (env : String → Option String) (n : YNode) (b : Bool) (n' : YNode),
      substituteNode env n b = .ok n' → eraseValues n' b = eraseValues n b)
    ∧ (∀ (env : String → Option String) (l name : List Char),
      name ∈ scanEnvRefs l → env (String.mk name) = none →
      (replaceEnvChars env l).2 = none →
      ('e' :: 'n' :: 'v' :: '(' :: (name ++ [')'])) <:+: (replaceEnvChars env l).1)
    ∧ (∀ (env : String → Option String) (l : List Char),
      (replaceEnvChars env l).2 ≠ none →
      ∃ name v, name ∈ scanEnvRefs l ∧ env (String.mk name) = some v ∧
        hasDisallowedControl v = true)
    ∧ (∀ (n : YNode) (b : Bool), substituteNode (fun _ => none) n b = .ok n) :=
  ⟨fun env n b => (substituteNode_preserves_erasure env).1 n b,
   fun env => replaceEnvChars_keeps_unset env,
   fun env => replaceEnvChars_err_from_set env,
   substituteNode_all_unset.1⟩

/-- Concrete instances of `substitution_value_nodes_only_spec`: the S1
spec example shapes — a value string `env(A)` with `A=one` substitutes
without touching the node spine; an unset `env(B)` survives verbatim; an
environment value holding `\x01` is the only failure source. -/
theorem substitution_value_nodes_only_spec_witness :
    (eraseValues (YNode.str "one") true =
      eraseValues (YNode.str (String.mk ['e', 'n', 'v', '(', 'A', ')'])) true)
    ∧ (('e' :: 'n' :: 'v' :: '(' :: (['B'] ++ [')'])) <:+:
      (replaceEnvChars envAllUnset ['e', 'n', 'v', '(', 'B', ')']).1)
    ∧ (∃ name v, name ∈ scanEnvRefs ['e', 'n', 'v', '(', 'A', ')'] ∧
      envCtrlChar (String.mk name) = some v ∧ hasDisallowedControl v = true) := by
  refine ⟨?_, ?_, ?_⟩
  · refine substitution_value_nodes_only_spec.1 envAOne
      (YNode.str (String.mk ['e', 'n', 'v', '(', 'A', ')'])) true (YNode.str "one") ?_
    have htry : tryEnvAt ['e', 'n', 'v', '(', 'A', ')'] = some ['A'] := rfl
    have h0 : replaceEnvChars envAOne
        ((['n', 'v', '(', 'A', ')'] : List Char).drop ((['A'] : List Char).length + 4)) =
        ([], none) := by
      show replaceEnvChars envAOne [] = ([], none)
      simp [replaceEnvChars]
    have henv : envAOne (String.mk ['A']) = some "one" := rfl
    have hok : ¬ hasDisallowedControl "one" = true := by decide
    have h1 : replaceEnvChars envAOne ['e', 'n', 'v', '(', 'A', ')'] =
        ("one".data, none) := by
      rw [replaceEnvChars_cons_subst envAOne 'e' ['n', 'v', '(', 'A', ')'] ['A'] "one"
        htry henv hok, h0]
      simp
    have hrepl : replaceEnvVarsInString envAOne (String.mk ['e', 'n', 'v', '(', 'A', ')']) =
        .ok "one" := by
      unfold replaceEnvVarsInString
      rw [show (String.mk ['e', 'n', 'v', '(', 'A', ')']).data =
        ['e', 'n', 'v', '(', 'A', ')'] from rfl, h1]
    simp [substituteNode, hrepl, Bind.bind, Except.bind]
  · refine substitution_value_nodes_only_spec.2.1 envAllUnset
      ['e', 'n', 'v', '(', 'B', ')'] ['B'] ?_ rfl ?_
    · rw [scanEnvRefs_cons_match 'e' ['n', 'v', '(', 'B', ')'] ['B'] rfl]
      exact List.mem_cons_self _ _
    · rw [replaceEnvChars_all_unset envAllUnset _ (fun _ _ => rfl)]
  · refine substitution_value_nodes_only_spec.2.2.1 envCtrlChar
      ['e', 'n', 'v', '(', 'A', ')'] ?_
    have htry : tryEnvAt ['e', 'n', 'v', '(', 'A', ')'] = some ['A'] := rfl
    have hbad : hasDisallowedControl (String.mk ['\x01']) = true := by decide
    have henv : envCtrlChar (String.mk ['A']) = some (String.mk ['\x01']) := rfl
    rw [replaceEnvChars_cons_ctrl envCtrlChar 'e' ['n', 'v', '(', 'A', ')'] ['A']
      (String.mk ['\x01']) htry henv hbad]
    simp

/-! ## Claim C5 — a validation-only run never writes to Artifacts -/

/-- A list of pipes each of which returns its input state unchanged keeps
the state unchanged through `runPipes`, on every path (nil, skip or
error). -/
theorem runPipes_state_invariant {σ : Type} :
    ∀ (pipes : List (Piper σ)), (∀ p ∈ pipes, ∀ t, (p.run t).1 = t) →
      ∀ s, (runPipes pipes s).1 = s := by
  intro pipes
  induction pipes with
  | nil => intro _ s; rfl
  | cons p rest ih =>
    intro h s
    have hp : (p.run s).1 = s := h p (by simp) s
    have hrest : ∀ q ∈ rest, ∀ t, (q.run t).1 = t :=
      fun q hq => h q (List.mem_cons_of_mem _ hq)
    rcases hrun : p.run s with ⟨s', e⟩
    have hs' : s' = s := by rw [hrun] at hp; exact hp
    subst hs'
    cases e with
    | none =>
      simp only [runPipes, hrun]
      exact ih hrest s'
    | some e =>
      by_cases hskip : e.skip = true
      · simp only [runPipes, hrun, hskip, if_true]
        exact ih hrest s'
      · simp [runPipes, hrun, hskip]

/-- Claim C5: running exactly the validation pipes leaves every field of
`ctx.Artifacts` (indeed the whole context) unchanged, whatever the run
returns.  `regexOk` is the `regexp.Compile` oracle of the changelog
check. -/
theorem validation_run_preserves_artifacts (regexOk : String → Bool) (ctx : Context) :
    (RunValidation regexOk ctx).1.artifacts = ctx.artifacts
    ∧ (RunValidation regexOk ctx).1 = ctx := by
  have h : (RunValidation regexOk ctx).1 = ctx := by
    apply runPipes_state_invariant
    intro p hp t
    simp only [ValidationPipes, List.mem_cons, List.not_mem_nil, or_false] at hp
    rcases hp with h | h | h | h | h | h | h | h <;> subst h <;>
      simp only [projectCheckRun, buildCheckRun, signCheckRun, notarizeCheckRun,
        archiveCheckRun, changelogCheckRun, releaseCheckRun, homebrewCheckRun] <;>
      (repeat' split) <;> rfl
  exact ⟨by rw [h], h⟩

/-! ## Claim C2 — Build and a pre-existing output directory (code bug)

`Pipe.Run` in `internal/pipe/build` performs no existence check on
`outputDir`: it calls `os.MkdirAll`, which succeeds when the directory
already exists, and proceeds to the xcodebuild invocation.  This
contradicts `TestPipeOutputDirExists` in the same file (which demands an
error containing "already exists" for a pre-existing
`dist/TestApp/v1.0.0`) and the repository documentation ("The build pipe
checks `os.Stat(outputDir)` before `os.MkdirAll`"). -/

/-- Claim C2: with the exact configuration of `TestPipeOutputDirExists`
(project name `TestApp`, version `v1.0.0`) and the output directory
already existing on disk, the build pipe's fail-fast section succeeds
and the pipe proceeds to invoke xcodebuild — it returns no
"already exists" error, contrary to the claim, the pipe's own test and
the docs.  (`mkdirIOFails` is irrelevant when the directory exists,
since Go's `os.MkdirAll` returns nil for an existing directory.) -/
theorem buildPrelude_ignores_existing_outputDir :
    buildPrelude "TestApp" "v1.0.0" true false = .ok "dist/TestApp/v1.0.0"
    ∧ buildPrelude "TestApp" "v1.0.0" true true = .ok "dist/TestApp/v1.0.0" := by
  constructor <;> rfl

/-! ## Claim C6 — Homebrew package selection -/

/-- Claim C6: `SelectPackage` returns the first `.zip` entry when one
exists, otherwise the first `.dmg` entry, otherwise an error containing
"no .zip or .dmg"; in particular it selects `/x/app.zip` from
`["/x/app.dmg", "/x/app.zip"]`. -/
theorem selectPackage_spec :
    (∀ (l₁ l₂ : List String) (p : String),
      filepathExt p = ".zip" → (∀ q ∈ l₁, filepathExt q ≠ ".zip") →
      SelectPackage (l₁ ++ p :: l₂) = .ok p)
    ∧ (∀ (l₁ l₂ : List String) (p : String),
      (∀ q ∈ l₁ ++ p :: l₂, filepathExt q ≠ ".zip") →
      filepathExt p = ".dmg" → (∀ q ∈ l₁, filepathExt q ≠ ".dmg") →
      SelectPackage (l₁ ++ p :: l₂) = .ok p)
    ∧ (∀ l : List String,
      (∀ q ∈ l, filepathExt q ≠ ".zip" ∧ filepathExt q ≠ ".dmg") →
      ∃ e, SelectPackage l = .error e ∧ strContains e "no .zip or .dmg" = true)
    ∧ SelectPackage ["/x/app.dmg", "/x/app.zip"] = .ok "/x/app.zip" := by
  refine ⟨?_, ?_, ?_, rfl⟩
  · intro l₁ l₂ p hp hl₁
    have h₁ : l₁.find? (fun q => filepathExt q == ".zip") = none := by
      rw [List.find?_eq_none]
      intro q hq
      simp [hl₁ q hq]
    simp [SelectPackage, List.find?_append, h₁, List.find?_cons, hp]
  · intro l₁ l₂ p hall hp hl₁
    have h₁ : (l₁ ++ p :: l₂).find? (fun q => filepathExt q == ".zip") = none := by
      rw [List.find?_eq_none]
      intro q hq
      simp [hall q hq]
    have h₂ : l₁.find? (fun q => filepathExt q == ".dmg") = none := by
      rw [List.find?_eq_none]
      intro q hq
      simp [hl₁ q hq]
    simp [SelectPackage, h₁, List.find?_append, h₂, List.find?_cons, hp]
  · intro l hl
    have h₁ : l.find? (fun q => filepathExt q == ".zip") = none := by
      rw [List.find?_eq_none]
      intro q hq
      simp [(hl q hq).1]
    have h₂ : l.find? (fun q => filepathExt q == ".dmg") = none := by
      rw [List.find?_eq_none]
      intro q hq
      simp [(hl q hq).2]
    refine ⟨"no .zip or .dmg package found for Homebrew cask — ensure archive formats include zip or dmg", ?_, ?_⟩
    · simp [SelectPackage, h₁, h₂]
    · rfl

/-- Concrete instances of `selectPackage_spec`. -/
theorem selectPackage_spec_witness :
    SelectPackage ["/a/x.txt", "/x/app.zip"] = .ok "/x/app.zip"
    ∧ SelectPackage ["/a/x.txt", "/a/x.dmg"] = .ok "/a/x.dmg"
    ∧ ∃ e, SelectPackage ["/a/x.txt"] = .error e ∧ strContains e "no .zip or .dmg" = true := by
  refine ⟨?_, ?_, ?_⟩
  · exact selectPackage_spec.1 ["/a/x.txt"] [] "/x/app.zip" (by rfl) (by decide)
  · exact selectPackage_spec.2.1 ["/a/x.txt"] [] "/a/x.dmg" (by decide) (by rfl) (by decide)
  · exact selectPackage_spec.2.2.1 ["/a/x.txt"] (by decide)

/-! ## Claim C8 — Sign pipe, Hardened Runtime and codesign flags -/

/-- Claim C8: the sign pipe computes
`hardenedRuntime = !SkipNotarize && notarize.apple_id != ""`, and the
codesign argument list contains `--options` and `runtime` exactly when
that flag is true; with `SkipNotarize` set the list contains neither.
(The membership statements assume the configured identity and app path
are not themselves the literal flag strings.) -/
theorem sign_codesign_args_spec :
    (∀ ctx : Context,
      hardenedRuntimeFlag ctx = (!ctx.skipNotarize && (ctx.config.notarize.appleID != "")))
    ∧ (∀ ctx : Context,
      ctx.config.sign.identity ≠ "--options" → ctx.config.sign.identity ≠ "runtime" →
      ctx.artifacts.appPath ≠ "--options" → ctx.artifacts.appPath ≠ "runtime" →
      ((("--options" ∈ signPipeCodesignArgs ctx) ∧ ("runtime" ∈ signPipeCodesignArgs ctx)) ↔
        hardenedRuntimeFlag ctx = true))
    ∧ (∀ ctx : Context, ctx.skipNotarize = true →
      ctx.config.sign.identity ≠ "--options" → ctx.config.sign.identity ≠ "runtime" →
      ctx.artifacts.appPath ≠ "--options" → ctx.artifacts.appPath ≠ "runtime" →
      "--options" ∉ signPipeCodesignArgs ctx ∧ "runtime" ∉ signPipeCodesignArgs ctx) := by
  refine ⟨fun _ => rfl, ?_, ?_⟩
  · intro ctx h₁ h₂ h₃ h₄
    unfold signPipeCodesignArgs codesignArgs
    cases h : hardenedRuntimeFlag ctx with
    | true => simp
    | false => simp [Ne.symm h₁, Ne.symm h₂, Ne.symm h₃, Ne.symm h₄]
  · intro ctx hskip h₁ h₂ h₃ h₄
    have hflag : hardenedRuntimeFlag ctx = false := by
      unfold hardenedRuntimeFlag
      rw [hskip]
      rfl
    unfold signPipeCodesignArgs codesignArgs
    rw [hflag]
    simp [Ne.symm h₁, Ne.symm h₂, Ne.symm h₃, Ne.symm h₄]

/-- Concrete instance of `sign_codesign_args_spec`: a context with
`--skip-notarize` yields codesign arguments without `--options`/`runtime`. -/
theorem sign_codesign_args_spec_witness :
    "--options" ∉ signPipeCodesignArgs
      { config := { project := ⟨"MyApp", "MyApp", ""⟩,
                    build := ⟨"Release", ["arm64"]⟩,
                    sign := ⟨"Developer ID Application: Me"⟩,
                    notarize := ⟨"me@example.com", "TEAM", "pw"⟩,
                    archive := ⟨["zip"]⟩,
                    changelog := ⟨false, "", ⟨[], []⟩, []⟩,
                    release := ⟨⟨"o", "r", false⟩⟩,
                    homebrew := ⟨⟨"myapp", "d", "h", ""⟩, ⟨"", "", ""⟩⟩ },
        version := "v1.0.0", clean := false,
        artifacts := ⟨"dist", "", "dist/MyApp.app", [], "", ""⟩,
        skipPublish := false, skipNotarize := true }
    ∧ "runtime" ∉ signPipeCodesignArgs
      { config := { project := ⟨"MyApp", "MyApp", ""⟩,
                    build := ⟨"Release", ["arm64"]⟩,
                    sign := ⟨"Developer ID Application: Me"⟩,
                    notarize := ⟨"me@example.com", "TEAM", "pw"⟩,
                    archive := ⟨["zip"]⟩,
                    changelog := ⟨false, "", ⟨[], []⟩, []⟩,
                    release := ⟨⟨"o", "r", false⟩⟩,
                    homebrew := ⟨⟨"myapp", "d", "h", ""⟩, ⟨"", "", ""⟩⟩ },
        version := "v1.0.0", clean := false,
        artifacts := ⟨"dist", "", "dist/MyApp.app", [], "", ""⟩,
        skipPublish := false, skipNotarize := true } :=
  sign_codesign_args_spec.2.2 _ rfl (by decide) (by decide) (by decide) (by decide)

/-! ## Claim C7 — cask field validation (template-injection defense) -/

/-- `substrOf` decides the sublist-infix relation. -/
theorem substrOf_iff_infix (n : List Char) :
    ∀ h : List Char, substrOf n h = true ↔ n <:+: h := by
  intro h
  induction h with
  | nil =>
    constructor
    · intro he
      have : n = [] := by simpa [substrOf, List.isEmpty_iff] using he
      simp [this]
    · intro he
      simp [substrOf, List.isEmpty_iff, List.eq_nil_of_infix_nil he]
  | cons c rest ih =>
    simp [substrOf, List.isPrefixOf_iff_prefix, ih, List.infix_cons_iff]

/-- `strContains` decides substring containment. -/
theorem strContains_iff (hay needle : String) :
    strContains hay needle = true ↔ needle.data <:+: hay.data :=
  substrOf_iff_infix needle.data hay.data

/-- `validateCaskField` accepts a value exactly when it is clean. -/
theorem validateCaskField_eq_none (n v : String) :
    validateCaskField n v = none ↔ CaskFieldClean v := by
  unfold validateCaskField CaskFieldClean
  cases hb : v.data.any (fun c => c = '"' || c = '\n' || c = '\r' || c = '\\') with
  | true =>
    simp only [hb, if_true]
    constructor
    · intro h; cases h
    · rintro ⟨hq, hbs, hcr, hnl, _⟩
      exfalso
      rw [List.any_eq_true] at hb
      obtain ⟨c, hc, hcp⟩ := hb
      simp only [Bool.or_eq_true, decide_eq_true_eq] at hcp
      rcases hcp with ((h | h) | h) | h
      · exact hq (h ▸ hc)
      · exact hnl (h ▸ hc)
      · exact hcr (h ▸ hc)
      · exact hbs (h ▸ hc)
  | false =>
    cases hcon : strContains v "#\x7b" with
    | true =>
      simp only [hb, hcon, if_false, if_true, Bool.false_eq_true]
      constructor
      · intro h; cases h
      · rintro ⟨_, _, _, _, hin⟩
        exact absurd ((strContains_iff _ _).mp hcon) hin
    | false =>
      simp only [hb, hcon, if_false, Bool.false_eq_true]
      rw [List.any_eq_false] at hb
      constructor
      · intro _
        refine ⟨fun hc => ?_, fun hc => ?_, fun hc => ?_, fun hc => ?_, fun hin => ?_⟩
        · have h := hb _ hc; simp at h
        · have h := hb _ hc; simp at h
        · have h := hb _ hc; simp at h
        · have h := hb _ hc; simp at h
        · have hx : strContains v "#\x7b" = true := (strContains_iff _ _).mpr hin
          rw [hcon] at hx
          cases hx
      · intro _; trivial

/-- The validation loop accepts exactly when every field is accepted. -/
theorem firstInvalidCaskField_eq_none (l : List (String × String)) :
    firstInvalidCaskField l = none ↔
      ∀ pr ∈ l, validateCaskField pr.1 pr.2 = none := by
  induction l with
  | nil => simp [firstInvalidCaskField]
  | cons pr rest ih =>
    unfold firstInvalidCaskField
    cases hv : validateCaskField pr.1 pr.2 with
    | none => simp [hv, ih]
    | some e => simp [hv]

/-- The error of the validation loop is the error of one of the fields. -/
theorem firstInvalidCaskField_eq_some (l : List (String × String)) (e : String) :
    firstInvalidCaskField l = some e →
      ∃ pr ∈ l, validateCaskField pr.1 pr.2 = some e := by
  induction l with
  | nil => intro h; exact absurd h (by simp [firstInvalidCaskField])
  | cons pr rest ih =>
    unfold firstInvalidCaskField
    cases hv : validateCaskField pr.1 pr.2 with
    | none =>
      intro h
      obtain ⟨q, hq, hqe⟩ := ih h
      exact ⟨q, by simp [hq], hqe⟩
    | some e' =>
      intro h
      cases h
      exact ⟨pr, by simp, hv⟩

/-- A `validateCaskField` error message names the offending field. -/
theorem validateCaskField_err_names_field (n v e : String)
    (h : validateCaskField n v = some e) : strContains e n = true := by
  unfold validateCaskField at h
  rw [strContains_iff]
  split_ifs at h
  · cases h
    exact ⟨("invalid " : String).data,
      (": must not contain double quotes, backslashes, or newlines" : String).data,
      by simp [String.data_append]⟩
  · cases h
    exact ⟨("invalid " : String).data,
      (": must not contain Ruby interpolation sequences" : String).data,
      by simp [String.data_append]⟩

/-- Claim C7: `RenderCask` produces cask text exactly when every templated
field (token, version, url, name, desc, homepage, app_name, license) is
free of double quote, backslash, CR, LF and the Ruby interpolation
opener; otherwise it errors with a message naming an offending field and
produces no text. -/
theorem renderCask_validation_spec :
    (∀ d : CaskData,
      (∃ t, RenderCask d = .ok t) ↔ ∀ pr ∈ caskFields d, CaskFieldClean pr.2)
    ∧ (∀ (d : CaskData) (e : String), RenderCask d = .error e →
      ∃ pr ∈ caskFields d, validateCaskField pr.1 pr.2 = some e ∧
        strContains e pr.1 = true) := by
  constructor
  · intro d
    unfold RenderCask
    cases hf : firstInvalidCaskField (caskFields d) with
    | none =>
      simp only [hf]
      rw [firstInvalidCaskField_eq_none] at hf
      constructor
      · intro _ pr hpr
        exact (validateCaskField_eq_none pr.1 pr.2).mp (hf pr hpr)
      · intro _; exact ⟨renderedCask d, rfl⟩
    | some e =>
      simp only [hf]
      constructor
      · rintro ⟨t, ht⟩; cases ht
      · intro hclean
        exfalso
        have : firstInvalidCaskField (caskFields d) = none := by
          rw [firstInvalidCaskField_eq_none]
          intro pr hpr
          exact (validateCaskField_eq_none pr.1 pr.2).mpr (hclean pr hpr)
        rw [this] at hf
        cases hf
  · intro d e h
    unfold RenderCask at h
    cases hf : firstInvalidCaskField (caskFields d) with
    | none => rw [hf] at h; cases h
    | some e' =>
      rw [hf] at h
      cases h
      obtain ⟨pr, hpr, hprv⟩ := firstInvalidCaskField_eq_some _ _ hf
      exact ⟨pr, hpr, hprv, validateCaskField_err_names_field _ _ _ hprv⟩

/-- Concrete instances of `renderCask_validation_spec`: a token holding a
double quote is rejected with an error naming `token`; fully clean data
renders. -/
theorem renderCask_validation_spec_witness :
    (∃ pr ∈ caskFields caskDataBadToken,
      validateCaskField pr.1 pr.2 =
        some "invalid token: must not contain double quotes, backslashes, or newlines" ∧
      strContains "invalid token: must not contain double quotes, backslashes, or newlines"
        pr.1 = true)
    ∧ (∃ t, RenderCask caskDataClean = .ok t) := by
  constructor
  · exact renderCask_validation_spec.2 caskDataBadToken _ rfl
  · have hall : ∀ pr ∈ caskFields caskDataClean, validateCaskField pr.1 pr.2 = none := by
      decide
    exact (renderCask_validation_spec.1 caskDataClean).mpr
      (fun pr hpr => (validateCaskField_eq_none pr.1 pr.2).mp (hall pr hpr))

/-! ## Claim C9 — create-or-update commit to the Homebrew tap -/

/-- Claim C9: with a tap configured, a successful read of
`Casks/<token>.rb` leads to an in-place update using the existing blob
SHA and message `"Update <token> to <version>"`; a read error containing
"404" leads to a create with message `"Add <token> <version>"`; any
other read error fails the pipe without writing to the tap. -/
theorem commitToTap_spec :
    (∀ (tO tN token version content sha : String) (uR cR : Option String),
      (commitToTap tO tN token version content (.ok sha) uR cR).1 =
        some (.update ("Casks/" ++ token ++ ".rb")
          ("Update " ++ token ++ " to " ++ version) sha content))
    ∧ (∀ (tO tN token version content e : String) (uR cR : Option String),
      strContains e "404" = true →
      (commitToTap tO tN token version content (.error e) uR cR).1 =
        some (.create ("Casks/" ++ token ++ ".rb")
          ("Add " ++ token ++ " " ++ version) content))
    ∧ (∀ (tO tN token version content e : String) (uR cR : Option String),
      strContains e "404" = false →
      commitToTap tO tN token version content (.error e) uR cR =
        (none, some ("failed to check existing cask in tap " ++ tO ++ "/" ++ tN ++
          ": " ++ e))) := by
  refine ⟨fun _ _ _ _ _ _ _ _ => rfl, ?_, ?_⟩
  · intro tO tN token version content e uR cR h
    simp [commitToTap, h]
  · intro tO tN token version content e uR cR h
    simp [commitToTap, h]

/-- Concrete instances of `commitToTap_spec` (the S4 scenario of the
spec: 404 on the first run, blob SHA `"deadbeef"` on the second). -/
theorem commitToTap_spec_witness :
    (commitToTap "o" "tap" "myapp" "1.2.3" "body" (.ok "deadbeef") none none).1 =
      some (.update "Casks/myapp.rb" "Update myapp to 1.2.3" "deadbeef" "body")
    ∧ (commitToTap "o" "tap" "myapp" "1.2.3" "body" (.error "GET: 404 Not Found") none none).1 =
      some (.create "Casks/myapp.rb" "Add myapp 1.2.3" "body")
    ∧ commitToTap "o" "tap" "myapp" "1.2.3" "body" (.error "boom") none none =
      (none, some "failed to check existing cask in tap o/tap: boom") := by
  refine ⟨?_, ?_, ?_⟩
  · exact commitToTap_spec.1 "o" "tap" "myapp" "1.2.3" "body" "deadbeef" none none
  · exact commitToTap_spec.2.1 "o" "tap" "myapp" "1.2.3" "body" "GET: 404 Not Found" none none (by rfl)
  · exact commitToTap_spec.2.2 "o" "tap" "myapp" "1.2.3" "body" "boom" none none (by rfl)

/-! ## Claim C10 — unrecognized archive formats are silently ignored -/

/-- The format switch skips an unrecognized format entirely. -/
theorem archiveFold_skip_unknown (zipR dmgR : String → Option String)
    (appPath outputDir appName version f : String)
    (h₁ : f ≠ "zip") (h₂ : f ≠ "dmg") (h₃ : f ≠ "app")
    (pre post : List String) (acc : List String) :
    archiveFold zipR dmgR appPath outputDir appName version (pre ++ f :: post) acc =
      archiveFold zipR dmgR appPath outputDir appName version (pre ++ post) acc := by
  induction pre generalizing acc with
  | nil => simp [archiveFold, h₁, h₂, h₃]
  | cons g rest ih =>
    simp only [List.cons_append, archiveFold]
    split
    · split
      · rfl
      · exact ih _
    · split
      · split
        · rfl
        · exact ih _
      · split
        · exact ih _
        · exact ih _

/-- Claim C10: a format outside `{"zip", "dmg", "app"}` produces neither
an error nor a package: the archive pipe yields the same artifacts and
the same error whether or not the unrecognized format appears in
`archive.formats` (the resulting contexts differ only in the
configuration they were given). -/
theorem archive_unknown_format_ignored (zipR dmgR : String → Option String)
    (ctx : Context) (pre post : List String) (f : String)
    (h₁ : f ≠ "zip") (h₂ : f ≠ "dmg") (h₃ : f ≠ "app") :
    ((archivePipeRun zipR dmgR (withFormats ctx (pre ++ f :: post))).1.artifacts =
      (archivePipeRun zipR dmgR (withFormats ctx (pre ++ post))).1.artifacts)
    ∧ ((archivePipeRun zipR dmgR (withFormats ctx (pre ++ f :: post))).2 =
      (archivePipeRun zipR dmgR (withFormats ctx (pre ++ post))).2) := by
  by_cases happ : ctx.artifacts.appPath = ""
  · simp [archivePipeRun, withFormats, happ]
  · simp [archivePipeRun, withFormats, happ,
      archiveFold_skip_unknown zipR dmgR _ _ _ _ f h₁ h₂ h₃]

/-- Concrete instance of `archive_unknown_format_ignored`: the format
`"tar"` is ignored. -/
theorem archive_unknown_format_ignored_witness :
    ((archivePipeRun (fun _ => none) (fun _ => none)
      (withFormats
        { config := { project := ⟨"MyApp", "MyApp", ""⟩,
                      build := ⟨"Release", ["arm64"]⟩,
                      sign := ⟨"id"⟩,
                      notarize := ⟨"", "", ""⟩,
                      archive := ⟨["zip"]⟩,
                      changelog := ⟨false, "", ⟨[], []⟩, []⟩,
                      release := ⟨⟨"o", "r", false⟩⟩,
                      homebrew := ⟨⟨"myapp", "d", "h", ""⟩, ⟨"", "", ""⟩⟩ },
          version := "v1.0.0", clean := false,
          artifacts := ⟨"dist", "", "dist/MyApp.app", [], "", ""⟩,
          skipPublish := false, skipNotarize := false }
        ["zip", "tar", "app"])).1.artifacts =
    (archivePipeRun (fun _ => none) (fun _ => none)
      (withFormats
        { config := { project := ⟨"MyApp", "MyApp", ""⟩,
                      build := ⟨"Release", ["arm64"]⟩,
                      sign := ⟨"id"⟩,
                      notarize := ⟨"", "", ""⟩,
                      archive := ⟨["zip"]⟩,
                      changelog := ⟨false, "", ⟨[], []⟩, []⟩,
                      release := ⟨⟨"o", "r", false⟩⟩,
                      homebrew := ⟨⟨"myapp", "d", "h", ""⟩, ⟨"", "", ""⟩⟩ },
          version := "v1.0.0", clean := false,
          artifacts := ⟨"dist", "", "dist/MyApp.app", [], "", ""⟩,
          skipPublish := false, skipNotarize := false }
        ["zip", "app"])).1.artifacts) :=
  (archive_unknown_format_ignored (fun _ => none) (fun _ => none) _
    ["zip"] ["app"] "tar" (by decide) (by decide) (by decide)).1

end Macreleaser
